import Mathlib

/-!
Shallow embedding of the sparse-to-dense bitmap index implemented in
src/array/index_by_bitmap.go (package array).

Modelling conventions.  Go int32 values are modelled as unbounded Int;
two's complement wrap-around (wrap32) is applied exactly where it is
reachable, namely in the capacity / word-count computation of
InitIndexBitmap (keys close to 2 ^ 31 - 1 make those computations
overflow; all other int32 operations of the file are performed on values
that provably stay inside int32 range, as noted at each definition).
uint64 bitmap words are modelled as Nat; every reachable word is below
2 ^ 64.  Go slices are lists; a slice access with an out-of-range index
is a Go runtime panic, modelled as a missing result (Option none, or a
dedicated panic constructor of BuildResult).
-/

namespace Slim

/-- wrap32 x is the value of the int32 register holding x: two's
complement wrap-around into the interval from -2 ^ 31 to 2 ^ 31 - 1. -/
def wrap32 (x : Int) : Int := (x + 2 ^ 31) % 2 ^ 32 - 2 ^ 31

/-- sliceGet? l i models the Go slice read l[i] with an int32 index i:
the stored value when 0 ≤ i < len l, and none (a runtime panic)
otherwise. -/
def sliceGet? {α : Type} (l : List α) (i : Int) : Option α :=
  if 0 ≤ i then l[i.toNat]? else none

/-- sliceSet? l i v models the Go slice write l[i] = v: the updated list
when 0 ≤ i < len l, and none (a runtime panic) otherwise. -/
def sliceSet? {α : Type} (l : List α) (i : Int) (v : α) : Option (List α) :=
  if 0 ≤ i ∧ i.toNat < l.length then some (l.set i.toNat v) else none

/-- Array32Index carries the fields of the embedded prototype.Array32
that the index code uses: the element counter Cnt (int32), the bitmap
words Bitmaps ([]uint64) and the per-word base offsets Offsets
([]int32). -/
structure Array32Index where
  Cnt : Int
  Bitmaps : List Nat
  Offsets : List Int
deriving DecidableEq

/-- fresh is a freshly created, empty structure (the Go zero value):
Cnt = 0 and nil slices. -/
def Array32Index.fresh : Array32Index := ⟨0, [], []⟩

/-- GoError has the package's only error value, ErrIndexNotAscending. -/
inductive GoError where
  | ErrIndexNotAscending
deriving DecidableEq

/-- BuildResult is the outcome of InitIndexBitmap: a normal return (nil
error), a return of ErrIndexNotAscending together with the partially
built structure, or one of the two reachable runtime panics (an
out-of-range slice index inside appendIndex, or make with a negative
length). -/
inductive BuildResult where
  | ok (a : Array32Index)
  | errNotAscending (a : Array32Index)
  | panicIndex
  | panicMake
deriving DecidableEq

/-- state? extracts the structure when InitIndexBitmap returned to its
caller (normally or with the error); none when it panicked. -/
def BuildResult.state? : BuildResult → Option Array32Index
  | .ok a => some a
  | .errNotAscending a => some a
  | _ => none

/-- bmWidth is the number of bits of a bitmap word. -/
def bmWidth : Int := 64

/-- bmMask is bmWidth - 1. -/
def bmMask : Int := 63

/-- bmBit models the Go function bmBit: the arithmetic right shift
idx >> 6 of an int32 is floor division by 64 (Int.fdiv), and the two's
complement mask idx & 63 is the nonnegative remainder idx % 64
(Int.emod). -/
def bmBit (idx : Int) : Int × Int :=
  (Int.fdiv idx 64, idx % 64)

/-- OnesCount64Before w p.  Modelled from the spec: the rank primitive
bits.OnesCount64Before lives in the slim bits package, which is not
under src/; per spec section 4.1 it returns, given a 64-bit word w and a
bit position p, the number of set bits in w at positions strictly less
than p. -/
def OnesCount64Before (w : Nat) (p : Nat) : Nat :=
  (List.range 64).countP fun b => decide (b < p) && w.testBit b

/-- appendIndex models the Go method appendIndex.  The bounds check of
the read of a.Bitmaps[iBm] and of the write a.Offsets[iBm] can fail
(none); the write back through the word pointer cannot fail once the
read succeeded, but is modelled with the same checked write.  a.Cnt + 1
cannot overflow int32 in any state reachable through InitIndexBitmap
(Cnt counts accepted keys, and there are fewer than 2 ^ 31 possible
keys), so no wrap32 is applied to it. -/
def appendIndex (a : Array32Index) (index : Int) : Option Array32Index :=
  match sliceGet? a.Bitmaps (bmBit index).1 with
  | none => none
  | some bmWord =>
    match (if bmWord = 0 then sliceSet? a.Offsets (bmBit index).1 a.Cnt
           else some a.Offsets) with
    | none => none
    | some offsets =>
      match sliceSet? a.Bitmaps (bmBit index).1
          (bmWord ||| (1 <<< (bmBit index).2.toNat)) with
      | none => none
      | some bitmaps =>
        some { Cnt := a.Cnt + 1, Bitmaps := bitmaps, Offsets := offsets }

/-- initLoop models the key loop of InitIndexBitmap.  The update
nxt = index[i] + 1 cannot overflow int32: an accepted key is smaller
than 64 times the word count, which is at most 2 ^ 31 - 64. -/
def initLoop (a : Array32Index) (index : List Int) (nxt : Int) : BuildResult :=
  match index with
  | [] => .ok a
  | k :: rest =>
    if k < nxt then .errNotAscending a
    else
      match appendIndex a k with
      | none => .panicIndex
      | some a' => initLoop a' rest (k + 1)

/-- InitIndexBitmap models the Go method InitIndexBitmap on the receiver
a.  capacity = index[len(index)-1] + 1 and the intermediate sum of
bmCnt = (capacity + bmWidth - 1) / bmWidth are int32 computations whose
wrap-around is reachable (keys close to 2 ^ 31 - 1), hence the wrap32;
the two wraps compose into one because wrap32 is a homomorphism mod
2 ^ 32.  Go integer division truncates toward zero (Int.tdiv), and make
with a negative length panics (panicMake). -/
def InitIndexBitmap (a : Array32Index) (index : List Int) : BuildResult :=
  let capacity : Int :=
    if 0 < index.length then wrap32 (index.getLast! + 1) else 0
  let bmCnt := Int.tdiv (wrap32 (capacity + bmWidth - 1)) bmWidth
  if bmCnt < 0 then .panicMake
  else
    initLoop { a with Bitmaps := List.replicate bmCnt.toNat 0,
                      Offsets := List.replicate bmCnt.toNat 0 } index 0

/-- GetEltIndex models the Go method GetEltIndex.  The comparison with
int32(len(a.Bitmaps)) and the sum base + int32(cnt1) cannot overflow
int32 on a structure built by InitIndexBitmap (the word count is at most
2 ^ 25, and the sum is a rank, bounded by Cnt), so they are modelled
without wrap32. -/
def GetEltIndex (a : Array32Index) (idx : Int) : Option (Int × Bool) :=
  if (a.Bitmaps.length : Int) ≤ (bmBit idx).1 then some (0, false)
  else
    match sliceGet? a.Bitmaps (bmBit idx).1 with
    | none => none
    | some bmWord =>
      if (bmWord >>> (bmBit idx).2.toNat) &&& 1 = 0 then some (0, false)
      else
        match sliceGet? a.Offsets (bmBit idx).1 with
        | none => none
        | some base =>
          some (base + (OnesCount64Before bmWord (bmBit idx).2.toNat : Int), true)

/-- Has models the Go method Has.  iBm is the Go truncated division
idx / bmWidth (not the arithmetic shift of bmBit), and idx & bmMask is
the nonnegative remainder idx % 64; the short-circuit of && means the
word is read only when iBm < len(a.Bitmaps), which for a negative idx
can still read the first word (iBm = 0) or panic (iBm < 0). -/
def Has (a : Array32Index) (idx : Int) : Option Bool :=
  if Int.tdiv idx bmWidth < (a.Bitmaps.length : Int) then
    match sliceGet? a.Bitmaps (Int.tdiv idx bmWidth) with
    | none => none
    | some w => some (decide ((w >>> (idx % 64).toNat) &&& 1 ≠ 0))
  else some false

/-- ascFrom nxt index decides whether every key of index is at least nxt
and the keys strictly ascend, i.e. exactly the condition the ascent
check of InitIndexBitmap enforces (it compares only against the
previously accepted key, starting from 0). -/
def ascFrom (nxt : Int) : List Int → Bool
  | [] => true
  | k :: rest => decide (nxt ≤ k) && ascFrom (k + 1) rest

/-! Bridges between the slice model and list lemmas. -/

theorem sliceGet?_eq_getElem {α : Type} (l : List α) (i : Int) (h0 : 0 ≤ i)
    (h : i.toNat < l.length) : sliceGet? l i = some l[i.toNat] := by
  unfold sliceGet?
  rw [if_pos h0, List.getElem?_eq_getElem h]

theorem sliceGet?_none_of_neg {α : Type} (l : List α) (i : Int) (h : i < 0) :
    sliceGet? l i = none := by
  unfold sliceGet?
  rw [if_neg (by omega)]

theorem sliceGet?_some {α : Type} {l : List α} {i : Int} {x : α}
    (h : sliceGet? l i = some x) : 0 ≤ i ∧ i.toNat < l.length := by
  unfold sliceGet? at h
  split at h
  · rename_i h0
    refine ⟨h0, ?_⟩
    rcases List.getElem?_eq_some.mp h with ⟨hlt, _⟩
    exact hlt
  · cases h

theorem sliceSet?_eq {α : Type} (l : List α) (i : Int) (v : α) (h0 : 0 ≤ i)
    (h : i.toNat < l.length) : sliceSet? l i v = some (l.set i.toNat v) := by
  unfold sliceSet?
  rw [if_pos ⟨h0, h⟩]

theorem sliceSet?_some {α : Type} {l l' : List α} {i : Int} {v : α}
    (h : sliceSet? l i v = some l') :
    0 ≤ i ∧ i.toNat < l.length ∧ l' = l.set i.toNat v := by
  unfold sliceSet? at h
  split at h
  · rename_i hc
    cases h
    exact ⟨hc.1, hc.2, rfl⟩
  · cases h

theorem getLast!_of_ne_nil {l : List Int} (h : l ≠ []) : l.getLast! = l.getLast h := by
  cases l with
  | nil => exact absurd rfl h
  | cons a as => rfl

/-! Bit-test bridge: the Go expression (w >> b) & 1 versus Nat.testBit. -/

theorem and_one_eq_testBit (w b : Nat) :
    (w >>> b) &&& 1 = (if w.testBit b then 1 else 0) := by
  rw [Nat.and_one_is_mod, Nat.testBit_to_div_mod, Nat.shiftRight_eq_div_pow]
  rcases Nat.mod_two_eq_zero_or_one (w / 2 ^ b) with h | h <;> simp [h]

theorem and_one_zero_iff (w b : Nat) :
    ((w >>> b) &&& 1 = 0) ↔ w.testBit b = false := by
  rw [and_one_eq_testBit]
  cases h : w.testBit b <;> simp

/-! Counting lemmas used to relate bitmap ranks to list ranks. -/

theorem countP_insert_one (l : List Nat) (p q : Nat → Bool) (x0 : Nat)
    (hnd : l.Nodup) (hmem : x0 ∈ l)
    (hagree : ∀ x ∈ l, x ≠ x0 → q x = p x) (hq : q x0 = true) (hp : p x0 = false) :
    l.countP q = l.countP p + 1 := by
  induction l with
  | nil => cases hmem
  | cons a l ih =>
    rw [List.countP_cons, List.countP_cons]
    rcases List.mem_cons.mp hmem with rfl | hx0l
    · have hnotin : x0 ∉ l := (List.nodup_cons.mp hnd).1
      have hcongr : l.countP q = l.countP p :=
        (List.countP_congr fun x hx => by
          rw [hagree x (List.mem_cons_of_mem _ hx) fun hEq => hnotin (hEq ▸ hx)]).symm
      rw [hcongr, hq, hp]
      simp
    · have hax : a ≠ x0 := fun hEq => (List.nodup_cons.mp hnd).1 (hEq ▸ hx0l)
      rw [hagree a (List.mem_cons_self a l) hax,
        ih (List.nodup_cons.mp hnd).2 hx0l
          (fun x hx hne => hagree x (List.mem_cons_of_mem _ hx) hne)]
      cases hpa : p a <;> simp [hpa]

theorem countP_lt_split (l : List Int) (m k : Int) (hmk : m ≤ k) :
    l.countP (fun x => decide (x < k)) =
      l.countP (fun x => decide (x < m)) +
        l.countP (fun x => decide (m ≤ x ∧ x < k)) := by
  induction l with
  | nil => simp
  | cons a l ih =>
    simp only [List.countP_cons, ih, decide_eq_true_eq]
    by_cases h1 : a < m
    · have h2 : a < k := by omega
      have h3 : ¬ (m ≤ a ∧ a < k) := by omega
      rw [if_pos h2, if_pos h1, if_neg h3]
      omega
    · by_cases h2 : a < k
      · have h3 : m ≤ a ∧ a < k := by omega
        rw [if_pos h2, if_neg h1, if_pos h3]
        omega
      · have h3 : ¬ (m ≤ a ∧ a < k) := by omega
        rw [if_neg h2, if_neg h1, if_neg h3]
        omega

theorem range_countP_block {L : List Int} (hL : L.Pairwise (· < ·)) (j : Int) (r : Nat)
    (hr : r ≤ 64) :
    (List.range 64).countP (fun b => decide (b < r) && decide (64 * j + (b : Int) ∈ L)) =
      L.countP (fun x => decide (64 * j ≤ x ∧ x < 64 * j + (r : Int))) := by
  induction L with
  | nil => simp
  | cons x L ih =>
    have hxL : ∀ y ∈ L, x < y := (List.pairwise_cons.mp hL).1
    have hL' : L.Pairwise (· < ·) := (List.pairwise_cons.mp hL).2
    have hxnotin : x ∉ L := fun hx => lt_irrefl x (hxL x hx)
    rw [List.countP_cons]
    by_cases hA : 64 * j ≤ x ∧ x < 64 * j + (r : Int)
    · have hbxlt : (x - 64 * j).toNat < r := by omega
      have hbxval : ((x - 64 * j).toNat : Int) = x - 64 * j := by omega
      have hxeq : 64 * j + (((x - 64 * j).toNat : Nat) : Int) = x := by omega
      have key := countP_insert_one (List.range 64)
        (fun b => decide (b < r) && decide (64 * j + (b : Int) ∈ L))
        (fun b => decide (b < r) && decide (64 * j + (b : Int) ∈ x :: L))
        (x - 64 * j).toNat
        (List.nodup_range 64) (List.mem_range.mpr (by omega))
        (fun b _ hne => by
          show (decide (b < r) && decide (64 * j + (b : Int) ∈ x :: L)) =
            (decide (b < r) && decide (64 * j + (b : Int) ∈ L))
          have hmemEq : (64 * j + (b : Int) ∈ x :: L) ↔ (64 * j + (b : Int) ∈ L) := by
            rw [List.mem_cons]
            constructor
            · rintro (hEq | hmem')
              · exact absurd (by omega : b = (x - 64 * j).toNat) hne
              · exact hmem'
            · exact Or.inr
          rw [decide_eq_decide.mpr hmemEq])
        (by
          show (decide ((x - 64 * j).toNat < r) &&
            decide (64 * j + (((x - 64 * j).toNat : Nat) : Int) ∈ x :: L)) = true
          rw [Bool.and_eq_true]
          exact ⟨decide_eq_true hbxlt,
            decide_eq_true (List.mem_cons.mpr (Or.inl hxeq))⟩)
        (by
          show (decide ((x - 64 * j).toNat < r) &&
            decide (64 * j + (((x - 64 * j).toNat : Nat) : Int) ∈ L)) = false
          have hnm : ¬ (64 * j + (((x - 64 * j).toNat : Nat) : Int) ∈ L) := fun hm =>
            hxnotin (hxeq ▸ hm)
          rw [decide_eq_false hnm, Bool.and_false])
      rw [key, ih hL']
      simp [hA]
    · have hcongr :
          (List.range 64).countP
              (fun b => decide (b < r) && decide (64 * j + (b : Int) ∈ x :: L)) =
            (List.range 64).countP
              (fun b => decide (b < r) && decide (64 * j + (b : Int) ∈ L)) :=
        (List.countP_congr fun b hb => by
          show (decide (b < r) && decide (64 * j + (b : Int) ∈ L)) = true ↔
            (decide (b < r) && decide (64 * j + (b : Int) ∈ x :: L)) = true
          have hb64 : b < 64 := List.mem_range.mp hb
          by_cases hbr : b < r
          · have hmemEq : (64 * j + (b : Int) ∈ x :: L) ↔ (64 * j + (b : Int) ∈ L) := by
              rw [List.mem_cons]
              constructor
              · rintro (hEq | hmem')
                · exact absurd ⟨by omega, by omega⟩ hA
                · exact hmem'
              · exact Or.inr
            rw [decide_eq_decide.mpr hmemEq]
          · rw [decide_eq_false hbr, Bool.false_and, Bool.false_and]).symm
      rw [hcongr, ih hL']
      simp [hA]

theorem countP_lt_getElem {L : List Int} (hL : L.Pairwise (· < ·)) (i : Nat)
    (hi : i < L.length) :
    L.countP (fun x => decide (x < L[i])) = i := by
  induction L generalizing i with
  | nil => exact absurd hi (by simp)
  | cons a L ih =>
    have hxL : ∀ y ∈ L, a < y := (List.pairwise_cons.mp hL).1
    have hL' : L.Pairwise (· < ·) := (List.pairwise_cons.mp hL).2
    cases i with
    | zero =>
      rw [List.countP_cons]
      have h0 : L.countP (fun x => decide (x < (a :: L)[0])) = 0 :=
        List.countP_eq_zero.mpr fun y hy => by
          have : a < y := hxL y hy
          simp only [List.getElem_cons_zero, decide_eq_true_eq]
          omega
      rw [h0]
      simp
    | succ i =>
      have hi' : i < L.length := by simpa using hi
      have hgetEq : (a :: L)[i + 1] = L[i] := List.getElem_cons_succ ..
      rw [List.countP_cons]
      simp only [hgetEq]
      have hlt : a < L[i] := hxL _ (List.getElem_mem hi')
      rw [ih hL' i hi']
      simp [hlt]

/-! getD bridges. -/

theorem getD_eq_get {α : Type} (l : List α) (j : Nat) (d : α) (h : j < l.length) :
    l.getD j d = l[j] := List.getD_eq_getElem l d h

theorem getD_set_self {α : Type} (l : List α) (j : Nat) (v d : α) (h : j < l.length) :
    (l.set j v).getD j d = v := by
  rw [List.getD_eq_getElem _ d (by simpa using h)]
  exact List.getElem_set_self (by simpa using h)

theorem getD_set_ne {α : Type} (l : List α) (i j : Nat) (v d : α) (hne : i ≠ j)
    (h : j < l.length) : (l.set i v).getD j d = l.getD j d := by
  rw [List.getD_eq_getElem _ d (by simpa using h), List.getD_eq_getElem _ d h]
  exact List.getElem_set_ne hne _

theorem getD_replicate {α : Type} (n j : Nat) (x d : α) (h : j < n) :
    (List.replicate n x).getD j d = x := by
  rw [List.getD_eq_getElem _ d (by simpa using h)]
  exact List.getElem_replicate x (by simpa using h)

theorem exists_testBit_of_ne_zero {w : Nat} (hne : w ≠ 0) (hlt : w < 2 ^ 64) :
    ∃ b, b < 64 ∧ w.testBit b = true := by
  by_contra hcon
  push_neg at hcon
  apply hne
  apply Nat.eq_of_testBit_eq
  intro i
  rw [Nat.zero_testBit]
  by_cases hi : i < 64
  · cases hb : w.testBit i with
    | false => rfl
    | true => exact absurd hb (hcon i hi)
  · exact Nat.testBit_lt_two_pow
      (lt_of_lt_of_le hlt (Nat.pow_le_pow_right (by norm_num) (by omega)))

/-- Inv a ps is the construction invariant of InitIndexBitmap: after the
keys ps (in order) have been accepted into the structure a, the counter
is the number of accepted keys, the accepted keys are strictly ascending
nonnegative values below the bitmap capacity, every bitmap word holds
exactly the bits of the accepted keys of its block, and the offset of
every touched block is the number of keys accepted before that block. -/
structure Inv (a : Array32Index) (ps : List Int) : Prop where
  lenO : a.Offsets.length = a.Bitmaps.length
  cnt : a.Cnt = (ps.length : Int)
  ordered : ps.Pairwise (· < ·)
  inRange : ∀ k ∈ ps, 0 ≤ k ∧ k < 64 * (a.Bitmaps.length : Int)
  wordLt : ∀ j, j < a.Bitmaps.length → a.Bitmaps.getD j 0 < 2 ^ 64
  bits : ∀ j, j < a.Bitmaps.length → ∀ b, b < 64 →
    (a.Bitmaps.getD j 0).testBit b = decide (64 * (j : Int) + (b : Int) ∈ ps)
  offs : ∀ j, j < a.Bitmaps.length → a.Bitmaps.getD j 0 ≠ 0 →
    a.Offsets.getD j 0 = (ps.countP (fun x => decide (x < 64 * (j : Int))) : Int)

theorem inv_start (N : Nat) :
    Inv ⟨0, List.replicate N 0, List.replicate N 0⟩ [] := by
  refine ⟨by simp, by simp, List.Pairwise.nil, ?_, ?_, ?_, ?_⟩
  · intro k hk
    exact absurd hk (List.not_mem_nil k)
  · intro j hj
    rw [getD_replicate N j 0 0 (by simpa using hj)]
    norm_num
  · intro j hj b _
    rw [getD_replicate N j 0 0 (by simpa using hj), Nat.zero_testBit]
    simp
  · intro j hj h0
    rw [getD_replicate N j 0 0 (by simpa using hj)] at h0
    exact absurd rfl h0

theorem appendIndex_bounds {a a1 : Array32Index} {k : Int}
    (h : appendIndex a k = some a1) :
    0 ≤ Int.fdiv k 64 ∧ (Int.fdiv k 64).toNat < a.Bitmaps.length := by
  unfold appendIndex at h
  split at h
  · exact Option.noConfusion h
  · rename_i w h1
    exact sliceGet?_some h1

theorem appendIndex_spec (a : Array32Index) (k : Int)
    (hj0 : 0 ≤ Int.fdiv k 64) (hjlt : (Int.fdiv k 64).toNat < a.Bitmaps.length)
    (hOlt : (Int.fdiv k 64).toNat < a.Offsets.length) :
    appendIndex a k = some
      { Cnt := a.Cnt + 1,
        Bitmaps := a.Bitmaps.set (Int.fdiv k 64).toNat
          (a.Bitmaps[(Int.fdiv k 64).toNat] ||| (1 <<< (k % 64).toNat)),
        Offsets := if a.Bitmaps[(Int.fdiv k 64).toNat] = 0
          then a.Offsets.set (Int.fdiv k 64).toNat a.Cnt else a.Offsets } := by
  unfold appendIndex
  have hfst : (bmBit k).1 = Int.fdiv k 64 := rfl
  have hsnd : (bmBit k).2 = k % 64 := rfl
  rw [hfst, hsnd, sliceGet?_eq_getElem _ _ hj0 hjlt]
  dsimp only
  by_cases hw : a.Bitmaps[(Int.fdiv k 64).toNat] = 0
  · rw [if_pos hw, if_pos hw, sliceSet?_eq _ _ _ hj0 hOlt]
    dsimp only
    rw [sliceSet?_eq _ _ _ hj0 (by simpa using hjlt)]
  · rw [if_neg hw, if_neg hw]
    dsimp only
    rw [sliceSet?_eq _ _ _ hj0 (by simpa using hjlt)]

theorem appendIndex_lengths {a a1 : Array32Index} {k : Int}
    (h : appendIndex a k = some a1) :
    a1.Bitmaps.length = a.Bitmaps.length ∧ a1.Offsets.length = a.Offsets.length := by
  unfold appendIndex at h
  split at h
  · exact Option.noConfusion h
  · rename_i w h1
    split at h
    · exact Option.noConfusion h
    · rename_i offsets h2
      split at h
      · exact Option.noConfusion h
      · rename_i bitmaps h3
        cases h
        obtain ⟨_, _, hb⟩ := sliceSet?_some h3
        refine ⟨by rw [hb, List.length_set], ?_⟩
        split at h2
        · obtain ⟨_, _, ho⟩ := sliceSet?_some h2
          rw [ho, List.length_set]
        · cases h2
          rfl

theorem inv_append {a a' : Array32Index} {ps : List Int} {k : Int}
    (hInv : Inv a ps) (hgt : ∀ x ∈ ps, x < k)
    (happ : appendIndex a k = some a') :
    Inv a' (ps ++ [k]) ∧ a'.Bitmaps.length = a.Bitmaps.length ∧
      a'.Offsets.length = a.Offsets.length ∧ 0 ≤ k := by
  obtain ⟨hj0, hjlt⟩ := appendIndex_bounds happ
  have hOlt : (Int.fdiv k 64).toNat < a.Offsets.length := by
    rw [hInv.lenO]; exact hjlt
  have h0k : 0 ≤ k := by
    by_contra hneg
    have hlt0 : Int.fdiv k 64 < 0 := by
      rw [Int.fdiv_eq_ediv _ (by norm_num)]
      exact Int.ediv_neg' (by omega) (by norm_num)
    omega
  have hjeq : ((Int.fdiv k 64).toNat : Int) = k / 64 := by
    rw [Int.fdiv_eq_ediv _ (by norm_num)] at hj0 ⊢
    omega
  have hreq : (((k % 64).toNat : Nat) : Int) = k % 64 := by omega
  have hrlt : (k % 64).toNat < 64 := by omega
  rw [appendIndex_spec a k hj0 hjlt hOlt] at happ
  cases happ
  have hwD : a.Bitmaps.getD (Int.fdiv k 64).toNat 0 =
      a.Bitmaps[(Int.fdiv k 64).toNat] := getD_eq_get _ _ _ hjlt
  have hkeq : 64 * (((Int.fdiv k 64).toNat : Nat) : Int) + (((k % 64).toNat : Nat) : Int) = k := by
    have := Int.ediv_add_emod k 64
    omega
  refine ⟨⟨?_, ?_, ?_, ?_, ?_, ?_, ?_⟩, by simp [List.length_set], ?_, h0k⟩
  · -- lenO
    show (if _ then _ else _ : List Int).length = _
    split <;> simp [List.length_set, hInv.lenO]
  · -- cnt
    show a.Cnt + 1 = _
    rw [hInv.cnt]
    simp [List.length_append]
  · -- ordered
    exact List.pairwise_append.mpr
      ⟨hInv.ordered, List.pairwise_singleton _ _,
        fun x hx y hy => by rw [List.mem_singleton.mp hy]; exact hgt x hx⟩
  · -- inRange
    intro x hx
    rcases List.mem_append.mp hx with hx | hx
    · have := hInv.inRange x hx
      simpa [List.length_set] using this
    · rw [List.mem_singleton.mp hx]
      refine ⟨h0k, ?_⟩
      simp only [List.length_set]
      omega
  · -- wordLt
    intro j hj
    simp only [List.length_set] at hj
    by_cases hjj : j = (Int.fdiv k 64).toNat
    · subst hjj
      rw [getD_set_self _ _ _ _ hjlt, Nat.one_shiftLeft]
      exact Nat.or_lt_two_pow (hwD ▸ hInv.wordLt _ hjlt)
        (Nat.pow_lt_pow_right (by norm_num) hrlt)
    · rw [getD_set_ne _ _ _ _ _ (fun hEq => hjj hEq.symm) hj]
      exact hInv.wordLt j hj
  · -- bits
    intro j hj b hb
    simp only [List.length_set] at hj
    by_cases hjj : j = (Int.fdiv k 64).toNat
    · subst hjj
      rw [getD_set_self _ _ _ _ hjlt, Nat.one_shiftLeft, Nat.testBit_or,
        Nat.testBit_two_pow]
      rw [← hwD, hInv.bits _ hjlt b hb]
      have hmemIff : (64 * (((Int.fdiv k 64).toNat : Nat) : Int) + (b : Int) ∈ ps ++ [k]) ↔
          ((64 * (((Int.fdiv k 64).toNat : Nat) : Int) + (b : Int) ∈ ps) ∨ (k % 64).toNat = b) := by
        rw [List.mem_append, List.mem_singleton]
        exact or_congr Iff.rfl (by omega)
      rw [decide_eq_decide.mpr hmemIff, Bool.decide_or]
    · rw [getD_set_ne _ _ _ _ _ (fun hEq => hjj hEq.symm) hj]
      rw [hInv.bits _ hj b hb]
      have hmemIff : (64 * (j : Int) + (b : Int) ∈ ps ++ [k]) ↔
          (64 * (j : Int) + (b : Int) ∈ ps) := by
        rw [List.mem_append, List.mem_singleton]
        constructor
        · rintro (h | h)
          · exact h
          · exfalso
            have hjne : (j : Int) ≠ (((Int.fdiv k 64).toNat : Nat) : Int) := by
              intro hc
              exact hjj (by omega)
            omega
        · exact Or.inl
      rw [decide_eq_decide.mpr hmemIff]
  · -- offs
    intro j hj hw'
    simp only [List.length_set] at hj
    have hsplitK : (ps ++ [k]).countP (fun x => decide (x < 64 * (j : Int))) =
        ps.countP (fun x => decide (x < 64 * (j : Int))) +
          List.countP (fun x => decide (x < 64 * (j : Int))) [k] := by
      rw [List.countP_append]
    by_cases hjj : j = (Int.fdiv k 64).toNat
    · subst hjj
      have hknot : ¬ (k < 64 * (((Int.fdiv k 64).toNat : Nat) : Int)) := by omega
      by_cases hw0 : a.Bitmaps[(Int.fdiv k 64).toNat] = 0
      · -- first key of this block: offset records the running count
        show (if _ then _ else _ : List Int).getD _ 0 = _
        rw [if_pos hw0, getD_set_self _ _ _ _ hOlt]
        have hall : ∀ x ∈ ps, (fun x => decide (x < 64 * (((Int.fdiv k 64).toNat : Nat) : Int))) x = true := by
          intro x hx
          have hxr := hInv.inRange x hx
          have hxk := hgt x hx
          by_contra hcon
          have hxge : 64 * (((Int.fdiv k 64).toNat : Nat) : Int) ≤ x := by
            simp only [decide_eq_true_eq] at hcon
            omega
          have hxlt : x < 64 * (((Int.fdiv k 64).toNat : Nat) : Int) + 64 := by omega
          have hbx : ((x - 64 * (((Int.fdiv k 64).toNat : Nat) : Int)).toNat : Int) =
              x - 64 * (((Int.fdiv k 64).toNat : Nat) : Int) := by omega
          have hbit := hInv.bits _ hjlt (x - 64 * (((Int.fdiv k 64).toNat : Nat) : Int)).toNat
            (by omega)
          rw [hwD, hw0, Nat.zero_testBit] at hbit
          have hxmem : 64 * (((Int.fdiv k 64).toNat : Nat) : Int) +
              ((x - 64 * (((Int.fdiv k 64).toNat : Nat) : Int)).toNat : Int) ∈ ps := by
            rw [show 64 * (((Int.fdiv k 64).toNat : Nat) : Int) +
              ((x - 64 * (((Int.fdiv k 64).toNat : Nat) : Int)).toNat : Int) = x by omega]
            exact hx
          rw [eq_comm, decide_eq_false_iff_not] at hbit
          exact hbit hxmem
        rw [hsplitK, List.countP_eq_length.mpr hall]
        rw [List.countP_cons]
        simp only [List.countP_nil, decide_eq_true_eq]
        rw [if_neg (by omega : ¬ (k < 64 * (((Int.fdiv k 64).toNat : Nat) : Int)))]
        rw [hInv.cnt]
        push_cast
        ring
      · -- block already touched: offset unchanged
        show (if _ then _ else _ : List Int).getD _ 0 = _
        rw [if_neg hw0]
        have hoff := hInv.offs _ hjlt (by rw [hwD]; exact hw0)
        rw [hoff, hsplitK]
        rw [List.countP_cons]
        simp only [List.countP_nil, decide_eq_true_eq]
        rw [if_neg (by omega : ¬ (k < 64 * (((Int.fdiv k 64).toNat : Nat) : Int)))]
        push_cast
        ring
    · -- other blocks: word and offset unchanged, and no accepted key lies beyond
      rw [getD_set_ne _ _ _ _ _ (fun hEq => hjj hEq.symm) hj] at hw'
      have hknot : ¬ (k < 64 * (j : Int)) := by
        intro hklt
        obtain ⟨b, hb64, hbset⟩ :=
          exists_testBit_of_ne_zero hw' (hInv.wordLt j hj)
        have hbit := hInv.bits j hj b hb64
        rw [hbset, eq_comm, decide_eq_true_eq] at hbit
        have := hgt _ hbit
        omega
      have hoget : (if a.Bitmaps[(Int.fdiv k 64).toNat] = 0
          then a.Offsets.set (Int.fdiv k 64).toNat a.Cnt else a.Offsets).getD j 0 =
          a.Offsets.getD j 0 := by
        split
        · exact getD_set_ne _ _ _ _ _ (fun hEq => hjj hEq.symm) (by omega)
        · rfl
      show (if _ then _ else _ : List Int).getD _ 0 = _
      rw [hoget, hInv.offs j hj hw', hsplitK]
      rw [List.countP_cons]
      simp only [List.countP_nil, decide_eq_true_eq]
      rw [if_neg hknot]
      push_cast
      ring
  · -- Offsets length
    show (if _ then _ else _ : List Int).length = _
    split <;> simp [List.length_set]

theorem initLoop_ok_inv (rem : List Int) :
    ∀ (a a' : Array32Index) (ps : List Int) (nxt : Int),
      Inv a ps → 0 ≤ nxt → (∀ x ∈ ps, x < nxt) →
      initLoop a rem nxt = .ok a' →
      Inv a' (ps ++ rem) ∧ a'.Bitmaps.length = a.Bitmaps.length := by
  induction rem with
  | nil =>
    intro a a' ps nxt hInv _ _ hok
    unfold initLoop at hok
    cases hok
    exact ⟨by simpa using hInv, rfl⟩
  | cons k rest ih =>
    intro a a' ps nxt hInv hnxt hub hok
    unfold initLoop at hok
    split at hok
    · exact BuildResult.noConfusion hok
    · rename_i hge
      split at hok
      · exact BuildResult.noConfusion hok
      · rename_i a1 happ
        obtain ⟨hInv1, hBlen, hOlen, h0k⟩ :=
          inv_append hInv (fun x hx => by have := hub x hx; omega) happ
        obtain ⟨hInv', hlen'⟩ := ih a1 a' (ps ++ [k]) (k + 1) hInv1 (by omega)
          (fun x hx => by
            rcases List.mem_append.mp hx with h | h
            · have := hub x h; omega
            · rw [List.mem_singleton.mp h]; omega)
          hok
        refine ⟨?_, by rw [hlen', hBlen]⟩
        rwa [List.append_assoc, List.singleton_append] at hInv'

theorem initLoop_state_lengths (rem : List Int) :
    ∀ (a a' : Array32Index) (nxt : Int),
      (initLoop a rem nxt).state? = some a' →
      a'.Bitmaps.length = a.Bitmaps.length ∧ a'.Offsets.length = a.Offsets.length := by
  induction rem with
  | nil =>
    intro a a' nxt h
    unfold initLoop at h
    simp only [BuildResult.state?] at h
    cases h
    exact ⟨rfl, rfl⟩
  | cons k rest ih =>
    intro a a' nxt h
    unfold initLoop at h
    split at h
    · simp only [BuildResult.state?] at h
      cases h
      exact ⟨rfl, rfl⟩
    · split at h
      · simp only [BuildResult.state?] at h
        exact Option.noConfusion h
      · rename_i a1 happ
        obtain ⟨h1, h2⟩ := ih a1 a' (k + 1) h
        obtain ⟨h3, h4⟩ := appendIndex_lengths happ
        exact ⟨by rw [h1, h3], by rw [h2, h4]⟩

theorem appendIndex_total {a : Array32Index} {k : Int}
    (hlen : a.Offsets.length = a.Bitmaps.length) (h0 : 0 ≤ k)
    (hk : k < 64 * (a.Bitmaps.length : Int)) :
    ∃ a1, appendIndex a k = some a1 := by
  have hfe : Int.fdiv k 64 = k / 64 := Int.fdiv_eq_ediv _ (by norm_num)
  have hj0 : 0 ≤ Int.fdiv k 64 := by
    rw [hfe]
    exact Int.ediv_nonneg h0 (by norm_num)
  have hjlt : (Int.fdiv k 64).toNat < a.Bitmaps.length := by
    rw [hfe] at hj0 ⊢
    omega
  exact ⟨_, appendIndex_spec a k hj0 hjlt (by omega)⟩

theorem initLoop_no_oob (rem : List Int) :
    ∀ (a : Array32Index) (nxt : Int),
      a.Offsets.length = a.Bitmaps.length → 0 ≤ nxt →
      (∀ x ∈ rem, x < 64 * (a.Bitmaps.length : Int)) →
      initLoop a rem nxt ≠ .panicIndex ∧
        ((∃ a', initLoop a rem nxt = .errNotAscending a') ↔ ascFrom nxt rem = false) := by
  induction rem with
  | nil =>
    intro a nxt hlen hnxt hb
    unfold initLoop
    refine ⟨fun h => BuildResult.noConfusion h, ?_, ?_⟩
    · rintro ⟨a', h⟩
      exact BuildResult.noConfusion h
    · intro h
      exact absurd h (by unfold ascFrom; simp)
  | cons k rest ih =>
    intro a nxt hlen hnxt hb
    unfold initLoop
    by_cases hlt : k < nxt
    · rw [if_pos hlt]
      refine ⟨fun h => BuildResult.noConfusion h, ?_, ?_⟩
      · intro _
        unfold ascFrom
        rw [decide_eq_false (by omega : ¬ nxt ≤ k), Bool.false_and]
      · intro _
        exact ⟨a, rfl⟩
    · rw [if_neg hlt]
      obtain ⟨a1, ha1⟩ :=
        appendIndex_total hlen (by omega) (hb k (List.mem_cons_self k rest))
      rw [ha1]
      dsimp only
      obtain ⟨hl1, hl2⟩ := appendIndex_lengths ha1
      obtain ⟨hnp, hiff⟩ := ih a1 (k + 1) (by rw [hl2, hl1, hlen]) (by omega)
        (fun x hx => by
          rw [hl1]
          exact hb x (List.mem_cons_of_mem k hx))
      refine ⟨hnp, ?_⟩
      unfold ascFrom
      rw [decide_eq_true (by omega : nxt ≤ k), Bool.true_and]
      exact hiff

/-! The capacity / word-count arithmetic of InitIndexBitmap. -/

/-- bmCntOf index is the int32 value bmCnt computed by InitIndexBitmap
(the length make is called with). -/
def bmCntOf (index : List Int) : Int :=
  Int.tdiv
    (wrap32 ((if 0 < index.length then wrap32 (index.getLast! + 1) else 0) +
      bmWidth - 1)) bmWidth

theorem initIndexBitmap_eq (a : Array32Index) (index : List Int) :
    InitIndexBitmap a index =
      if bmCntOf index < 0 then .panicMake
      else initLoop
        { a with Bitmaps := List.replicate (bmCntOf index).toNat 0,
                 Offsets := List.replicate (bmCntOf index).toNat 0 } index 0 := rfl

theorem initIndexBitmap_ok_inv {index : List Int} {a' : Array32Index}
    (hok : InitIndexBitmap Array32Index.fresh index = .ok a') :
    Inv a' index ∧ a'.Bitmaps.length = (bmCntOf index).toNat := by
  rw [initIndexBitmap_eq] at hok
  split at hok
  · exact BuildResult.noConfusion hok
  · obtain ⟨hInv, hlen⟩ := initLoop_ok_inv index _ a' [] 0
      (inv_start (bmCntOf index).toNat) le_rfl
      (fun x hx => absurd hx (List.not_mem_nil x)) hok
    exact ⟨by simpa using hInv, by simpa using hlen⟩

theorem initIndexBitmap_returns {index : List Int} {a' : Array32Index}
    (h : (InitIndexBitmap Array32Index.fresh index).state? = some a') :
    a'.Bitmaps.length = (bmCntOf index).toNat ∧
      a'.Offsets.length = (bmCntOf index).toNat ∧ 0 ≤ bmCntOf index := by
  rw [initIndexBitmap_eq] at h
  split at h
  · simp only [BuildResult.state?] at h
    exact Option.noConfusion h
  · rename_i hge
    obtain ⟨h1, h2⟩ := initLoop_state_lengths index _ a' 0 h
    exact ⟨by simpa using h1, by simpa using h2, by omega⟩

theorem tdiv64_nonneg (n : Int) (h : 0 ≤ n) : Int.tdiv n 64 = n / 64 :=
  Int.tdiv_eq_ediv h (by norm_num)

theorem tdiv64_neg (n : Int) (h : n < 0) : Int.tdiv n 64 = -((-n) / 64) := by
  have h1 := Int.neg_tdiv (-n) 64
  simp only [neg_neg] at h1
  rw [h1, tdiv64_nonneg (-n) (by omega)]

theorem bmCntOf_eq {index : List Int} (h : index ≠ []) :
    bmCntOf index = Int.tdiv (wrap32 (wrap32 (index.getLast h + 1) + 63)) 64 := by
  unfold bmCntOf bmWidth
  rw [if_pos (List.length_pos.mpr h), getLast!_of_ne_nil h,
    show (wrap32 (index.getLast h + 1) + 64 - 1 : Int) =
      wrap32 (index.getLast h + 1) + 63 from by ring]

theorem bmCnt_core (last : Int) (h32 : -2 ^ 31 ≤ last) (h31 : last < 2 ^ 31)
    (hnn : 0 ≤ Int.tdiv (wrap32 (wrap32 (last + 1) + 63)) 64) :
    (0 ≤ last → Int.tdiv (wrap32 (wrap32 (last + 1) + 63)) 64 = (last + 64) / 64) ∧
      last < 64 * Int.tdiv (wrap32 (wrap32 (last + 1) + 63)) 64 := by
  set n2 := wrap32 (last + 1) with hn2
  set n3 := wrap32 (n2 + 63) with hn3
  have e2 : n2 = (last + 1 + 2 ^ 31) % 2 ^ 32 - 2 ^ 31 := by simp [hn2, wrap32]
  have e3 : n3 = (n2 + 63 + 2 ^ 31) % 2 ^ 32 - 2 ^ 31 := by simp [hn3, wrap32]
  rcases le_or_lt 0 n3 with hpos | hneg
  · rw [tdiv64_nonneg n3 hpos] at hnn ⊢
    constructor
    · intro h0
      omega
    · omega
  · rw [tdiv64_neg n3 hneg] at hnn ⊢
    constructor
    · intro h0
      omega
    · omega

/-! Query lemmas: GetEltIndex and Has on a structure satisfying Inv. -/

theorem getEltIndex_mem {a : Array32Index} {L : List Int} (hInv : Inv a L)
    (i : Nat) (hi : i < L.length) :
    GetEltIndex a L[i] = some ((i : Int), true) := by
  have hkmem : L[i] ∈ L := List.getElem_mem hi
  obtain ⟨h0k, hklt⟩ := hInv.inRange L[i] hkmem
  have hfe : (bmBit L[i]).1 = L[i] / 64 := Int.fdiv_eq_ediv _ (by norm_num)
  have hsnd : (bmBit L[i]).2 = L[i] % 64 := rfl
  have hj0 : 0 ≤ (bmBit L[i]).1 := by
    rw [hfe]
    exact Int.ediv_nonneg h0k (by norm_num)
  have hjlt : (bmBit L[i]).1.toNat < a.Bitmaps.length := by omega
  have hOlt : (bmBit L[i]).1.toNat < a.Offsets.length := by
    rw [hInv.lenO]
    exact hjlt
  have hrlt : (bmBit L[i]).2.toNat < 64 := by omega
  have hkeq : 64 * (((bmBit L[i]).1.toNat : Nat) : Int) +
      (((bmBit L[i]).2.toNat : Nat) : Int) = L[i] := by omega
  unfold GetEltIndex
  rw [if_neg (by omega), sliceGet?_eq_getElem _ _ hj0 hjlt]
  dsimp only
  have hbit : (a.Bitmaps[(bmBit L[i]).1.toNat]).testBit (bmBit L[i]).2.toNat = true := by
    rw [← getD_eq_get _ _ 0 hjlt, hInv.bits _ hjlt _ hrlt]
    exact decide_eq_true (by rw [hkeq]; exact hkmem)
  rw [if_neg (by rw [and_one_zero_iff, hbit]; simp),
    sliceGet?_eq_getElem _ _ hj0 hOlt]
  dsimp only
  have hwne : a.Bitmaps.getD (bmBit L[i]).1.toNat 0 ≠ 0 := by
    intro hz
    rw [getD_eq_get _ _ 0 hjlt] at hz
    rw [hz, Nat.zero_testBit] at hbit
    exact Bool.noConfusion hbit
  have hbase : a.Offsets[(bmBit L[i]).1.toNat] =
      (L.countP (fun x =>
        decide (x < 64 * (((bmBit L[i]).1.toNat : Nat) : Int))) : Int) := by
    rw [← getD_eq_get _ _ 0 hOlt]
    exact hInv.offs _ hjlt hwne
  have hocb : OnesCount64Before (a.Bitmaps[(bmBit L[i]).1.toNat]) (bmBit L[i]).2.toNat =
      L.countP (fun x => decide (64 * (((bmBit L[i]).1.toNat : Nat) : Int) ≤ x ∧
        x < 64 * (((bmBit L[i]).1.toNat : Nat) : Int) +
          (((bmBit L[i]).2.toNat : Nat) : Int))) := by
    unfold OnesCount64Before
    rw [← range_countP_block hInv.ordered (((bmBit L[i]).1.toNat : Nat) : Int)
      (bmBit L[i]).2.toNat (by omega)]
    apply List.countP_congr
    intro b hb
    dsimp only
    have hb64 := List.mem_range.mp hb
    rw [show (a.Bitmaps[(bmBit L[i]).1.toNat]).testBit b =
        decide (64 * (((bmBit L[i]).1.toNat : Nat) : Int) + (b : Int) ∈ L) from by
      rw [← getD_eq_get _ _ 0 hjlt]
      exact hInv.bits _ hjlt b hb64]
  rw [hkeq] at hocb
  rw [hbase, hocb]
  have hs := countP_lt_split L (64 * (((bmBit L[i]).1.toNat : Nat) : Int)) L[i] (by omega)
  have hg := countP_lt_getElem hInv.ordered i hi
  simp only [Option.some.injEq, Prod.mk.injEq, and_true]
  omega

theorem getEltIndex_not_mem {a : Array32Index} {L : List Int} {k : Int} (hInv : Inv a L)
    (h0 : 0 ≤ k) (hnm : k ∉ L) :
    GetEltIndex a k = some (0, false) := by
  have hfe : (bmBit k).1 = k / 64 := Int.fdiv_eq_ediv _ (by norm_num)
  have hsnd : (bmBit k).2 = k % 64 := rfl
  unfold GetEltIndex
  by_cases hbig : (a.Bitmaps.length : Int) ≤ (bmBit k).1
  · rw [if_pos hbig]
  · rw [if_neg hbig]
    have hj0 : 0 ≤ (bmBit k).1 := by
      rw [hfe]
      exact Int.ediv_nonneg h0 (by norm_num)
    have hjlt : (bmBit k).1.toNat < a.Bitmaps.length := by omega
    rw [sliceGet?_eq_getElem _ _ hj0 hjlt]
    dsimp only
    have hrlt : (bmBit k).2.toNat < 64 := by omega
    have hkeq : 64 * (((bmBit k).1.toNat : Nat) : Int) +
        (((bmBit k).2.toNat : Nat) : Int) = k := by omega
    have hbit : (a.Bitmaps[(bmBit k).1.toNat]).testBit (bmBit k).2.toNat = false := by
      rw [← getD_eq_get _ _ 0 hjlt, hInv.bits _ hjlt _ hrlt]
      exact decide_eq_false (by rw [hkeq]; exact hnm)
    rw [if_pos ((and_one_zero_iff _ _).mpr hbit)]

theorem has_vs_get {a : Array32Index} {k : Int}
    (hlen : a.Offsets.length = a.Bitmaps.length) (h0 : 0 ≤ k) :
    ∃ p : Int × Bool, GetEltIndex a k = some p ∧ Has a k = some p.2 := by
  have hfe : (bmBit k).1 = k / 64 := Int.fdiv_eq_ediv _ (by norm_num)
  have hte : Int.tdiv k bmWidth = k / 64 := by
    show Int.tdiv k 64 = k / 64
    exact tdiv64_nonneg k h0
  have hj0 : 0 ≤ (bmBit k).1 := by
    rw [hfe]
    exact Int.ediv_nonneg h0 (by norm_num)
  unfold GetEltIndex Has
  rw [hte, ← hfe]
  by_cases hbig : (a.Bitmaps.length : Int) ≤ (bmBit k).1
  · rw [if_pos hbig, if_neg (by omega)]
    exact ⟨(0, false), rfl, rfl⟩
  · have hjlt : (bmBit k).1.toNat < a.Bitmaps.length := by omega
    rw [if_neg hbig, if_pos (by omega), sliceGet?_eq_getElem _ _ hj0 hjlt]
    dsimp only
    rw [show (bmBit k).2 = k % 64 from rfl]
    by_cases hb : (a.Bitmaps[(bmBit k).1.toNat] >>> (k % 64).toNat) &&& 1 = 0
    · rw [if_pos hb]
      refine ⟨(0, false), rfl, ?_⟩
      rw [hb]
      simp
    · rw [if_neg hb]
      have hOlt : (bmBit k).1.toNat < a.Offsets.length := by omega
      rw [sliceGet?_eq_getElem _ _ hj0 hOlt]
      dsimp only
      refine ⟨_, rfl, ?_⟩
      rw [decide_eq_true hb]

/-! Claim theorems. -/

/-- C1: for every strictly ascending list of non-negative int32 keys, after
InitIndexBitmap succeeds on a freshly created (empty, Cnt = 0) structure,
GetEltIndex returns (i, true) for the key at 0-based position i of the build
list, and (0, false) (in particular found = false) for every non-negative key
not in the list. -/
theorem C1_round_trip (index : List Int) (a : Array32Index)
    (_hasc : index.Pairwise (· < ·)) (_hpos : ∀ k ∈ index, 0 ≤ k)
    (hok : InitIndexBitmap Array32Index.fresh index = .ok a) :
    (∀ (i : Nat) (hi : i < index.length),
      GetEltIndex a index[i] = some ((i : Int), true)) ∧
    (∀ k : Int, 0 ≤ k → k ∉ index → GetEltIndex a k = some (0, false)) := by
  obtain ⟨hInv, _⟩ := initIndexBitmap_ok_inv hok
  exact ⟨fun i hi => getEltIndex_mem hInv i hi,
    fun k h0 hnm => getEltIndex_not_mem hInv h0 hnm⟩

/-- Witness for C1 at the build list [0, 65]. -/
theorem C1_round_trip_witness :
    (([0, 65] : List Int).Pairwise (· < ·)) ∧
    (∀ k ∈ ([0, 65] : List Int), 0 ≤ k) ∧
    (InitIndexBitmap Array32Index.fresh [0, 65] = .ok ⟨2, [1, 2], [0, 1]⟩) ∧
    GetEltIndex ⟨2, [1, 2], [0, 1]⟩ 65 = some (1, true) ∧
    GetEltIndex ⟨2, [1, 2], [0, 1]⟩ 64 = some (0, false) :=
  ⟨by decide, by decide, by decide,
    (C1_round_trip [0, 65] ⟨2, [1, 2], [0, 1]⟩ (by decide) (by decide) (by decide)).1
      1 (by decide),
    (C1_round_trip [0, 65] ⟨2, [1, 2], [0, 1]⟩ (by decide) (by decide) (by decide)).2
      64 (by decide) (by decide)⟩

/-- C2 (amended): on a built structure the queries are total for every
NON-NEGATIVE int32 key, and a non-negative key not in the build list (in
particular any key at or beyond the built capacity) yields false resp.
(0, false); for negative keys the claim fails, see C2_counterexample. -/
theorem C2_queries_total_nonneg (index : List Int) (a : Array32Index) (k : Int)
    (hok : InitIndexBitmap Array32Index.fresh index = .ok a) (h0 : 0 ≤ k) :
    (∃ b, Has a k = some b) ∧ (∃ p, GetEltIndex a k = some p) ∧
    (k ∉ index → GetEltIndex a k = some (0, false) ∧ Has a k = some false) := by
  obtain ⟨hInv, _⟩ := initIndexBitmap_ok_inv hok
  obtain ⟨p, hg, hh⟩ := has_vs_get hInv.lenO h0
  refine ⟨⟨p.2, hh⟩, ⟨p, hg⟩, fun hnm => ?_⟩
  have hgn := getEltIndex_not_mem hInv h0 hnm
  rw [hgn] at hg
  cases hg
  exact ⟨hgn, hh⟩

/-- Counterexample to C2 as stated: on the structure built from [0], the
lookup of the int32 key -1 reads Bitmaps[-1], an out-of-range slice access
(modelled as none), instead of reporting not-found. -/
theorem C2_counterexample :
    InitIndexBitmap Array32Index.fresh [0] = .ok ⟨1, [1], [0]⟩ ∧
    GetEltIndex ⟨1, [1], [0]⟩ (-1) = none := by decide

/-- Witness for C2 at the build list [0] and the key 70. -/
theorem C2_queries_total_nonneg_witness :
    (InitIndexBitmap Array32Index.fresh [0] = .ok ⟨1, [1], [0]⟩) ∧
    ((0 : Int) ≤ 70) ∧
    ((∃ b, Has ⟨1, [1], [0]⟩ (70 : Int) = some b) ∧
      (∃ p, GetEltIndex ⟨1, [1], [0]⟩ (70 : Int) = some p) ∧
      ((70 : Int) ∉ ([0] : List Int) →
        GetEltIndex ⟨1, [1], [0]⟩ (70 : Int) = some (0, false) ∧
          Has ⟨1, [1], [0]⟩ (70 : Int) = some false)) :=
  ⟨by decide, by decide,
    C2_queries_total_nonneg [0] ⟨1, [1], [0]⟩ 70 (by decide) (by decide)⟩

/-- C3 (amended): on a built structure and for every NON-NEGATIVE int32 key,
Has k equals the boolean component of GetEltIndex k; for negative keys the
two paths diverge, see C3_counterexample. -/
theorem C3_has_agrees_nonneg (index : List Int) (a : Array32Index) (k : Int)
    (hok : InitIndexBitmap Array32Index.fresh index = .ok a) (h0 : 0 ≤ k) :
    ∃ p : Int × Bool, GetEltIndex a k = some p ∧ Has a k = some p.2 := by
  obtain ⟨hInv, _⟩ := initIndexBitmap_ok_inv hok
  exact has_vs_get hInv.lenO h0

/-- Counterexample to C3 as stated: on the structure built from [63], Has
(-1) truncates -1 / 64 to block 0 and reports true (bit 63 of the first
word), while GetEltIndex (-1) shifts -1 >> 6 to block -1 and hits an
out-of-range slice access (none): the two do not agree on the key -1. -/
theorem C3_counterexample :
    InitIndexBitmap Array32Index.fresh [63] = .ok ⟨1, [9223372036854775808], [0]⟩ ∧
    Has ⟨1, [9223372036854775808], [0]⟩ (-1) = some true ∧
    GetEltIndex ⟨1, [9223372036854775808], [0]⟩ (-1) = none := by decide

/-- Witness for C3 at the build list [63] and the key 63. -/
theorem C3_has_agrees_nonneg_witness :
    (InitIndexBitmap Array32Index.fresh [63] = .ok ⟨1, [9223372036854775808], [0]⟩) ∧
    ((0 : Int) ≤ 63) ∧
    (∃ p : Int × Bool, GetEltIndex ⟨1, [9223372036854775808], [0]⟩ 63 = some p ∧
      Has ⟨1, [9223372036854775808], [0]⟩ 63 = some p.2) :=
  ⟨by decide, by decide,
    C3_has_agrees_nonneg [63] ⟨1, [9223372036854775808], [0]⟩ 63 (by decide) (by decide)⟩

/-- C4: evaluation of InitIndexBitmap at the failing input [100, 5] and at
the claim's examples [5, 3] and [5, 5].  The input [100, 5] is not strictly
ascending, yet the build does not return ErrIndexNotAscending: processing
the element 100 writes Bitmaps[1] in a bitmap of one word and aborts with an
out-of-range slice index, contradicting the code's own documentation
(non-ascending input returns the ErrIndexNotAscending error).  [5, 3] and
[5, 5] do return the error, with the structure partially built. -/
theorem C4_code_bug_eval :
    InitIndexBitmap Array32Index.fresh [100, 5] = .panicIndex ∧
    InitIndexBitmap Array32Index.fresh [5, 3] = .errNotAscending ⟨1, [32], [0]⟩ ∧
    InitIndexBitmap Array32Index.fresh [5, 5] = .errNotAscending ⟨1, [32], [0]⟩ := by
  decide

/-- C5: after a successful build on a fresh structure, for every key whose
bit is set in Bitmaps, GetEltIndex returns Offsets[k >> 6] plus the number
of set bits of Bitmaps[k >> 6] strictly below bit k mod 64
(OnesCount64Before), and Offsets of that block equals the number of build
keys below the block, i.e. the running count at the moment the block's word
first became non-zero. -/
theorem C5_rank_formula (index : List Int) (a : Array32Index) (k : Int)
    (hok : InitIndexBitmap Array32Index.fresh index = .ok a)
    (h0 : 0 ≤ k) (hj : (bmBit k).1.toNat < a.Bitmaps.length)
    (hbit : (a.Bitmaps.getD (bmBit k).1.toNat 0).testBit (bmBit k).2.toNat = true) :
    GetEltIndex a k = some
      (a.Offsets.getD (bmBit k).1.toNat 0 +
        (OnesCount64Before (a.Bitmaps.getD (bmBit k).1.toNat 0)
          (bmBit k).2.toNat : Int), true) ∧
    a.Offsets.getD (bmBit k).1.toNat 0 =
      (index.countP (fun x => decide (x < 64 * (((bmBit k).1.toNat : Nat) : Int))) : Int) := by
  obtain ⟨hInv, _⟩ := initIndexBitmap_ok_inv hok
  have hfe : (bmBit k).1 = k / 64 := Int.fdiv_eq_ediv _ (by norm_num)
  have hj0 : 0 ≤ (bmBit k).1 := by
    rw [hfe]
    exact Int.ediv_nonneg h0 (by norm_num)
  have hwne : a.Bitmaps.getD (bmBit k).1.toNat 0 ≠ 0 := by
    intro hz
    rw [hz, Nat.zero_testBit] at hbit
    exact Bool.noConfusion hbit
  have hOlt : (bmBit k).1.toNat < a.Offsets.length := by
    rw [hInv.lenO]
    exact hj
  constructor
  · unfold GetEltIndex
    rw [if_neg (by omega), sliceGet?_eq_getElem _ _ hj0 hj]
    dsimp only
    rw [if_neg (by
      rw [and_one_zero_iff, ← getD_eq_get _ _ 0 hj, hbit]
      simp)]
    rw [sliceGet?_eq_getElem _ _ hj0 hOlt]
    dsimp only
    rw [getD_eq_get _ _ 0 hj, getD_eq_get _ _ 0 hOlt]
  · rw [hInv.offs _ hj hwne]

/-- Witness for C5 at the build list [0, 65] and the key 65. -/
theorem C5_rank_formula_witness :
    (InitIndexBitmap Array32Index.fresh [0, 65] = .ok ⟨2, [1, 2], [0, 1]⟩) ∧
    ((0 : Int) ≤ 65) ∧
    ((bmBit 65).1.toNat < (Array32Index.mk 2 [1, 2] [0, 1]).Bitmaps.length) ∧
    (((Array32Index.mk 2 [1, 2] [0, 1]).Bitmaps.getD (bmBit 65).1.toNat 0).testBit
      (bmBit 65).2.toNat = true) ∧
    (GetEltIndex ⟨2, [1, 2], [0, 1]⟩ 65 = some
      ((Array32Index.mk 2 [1, 2] [0, 1]).Offsets.getD (bmBit 65).1.toNat 0 +
        (OnesCount64Before
          ((Array32Index.mk 2 [1, 2] [0, 1]).Bitmaps.getD (bmBit 65).1.toNat 0)
          (bmBit 65).2.toNat : Int), true) ∧
      (Array32Index.mk 2 [1, 2] [0, 1]).Offsets.getD (bmBit 65).1.toNat 0 =
        (([0, 65] : List Int).countP
          (fun x => decide (x < 64 * (((bmBit 65).1.toNat : Nat) : Int))) : Int)) :=
  ⟨by decide, by decide, by decide, by decide,
    C5_rank_formula [0, 65] ⟨2, [1, 2], [0, 1]⟩ 65 (by decide) (by decide) (by decide)
      (by decide)⟩

/-- C6 (amended): whenever InitIndexBitmap returns (normally or with the
error), Bitmaps and Offsets have the same length; both are empty when the
input is empty; and when the last element is non-negative (and an int32)
the length equals ceil((last + 1) / 64), written (last + 1 + 63) / 64.  For
a negative last element the ceiling formula fails, see C6_counterexample. -/
theorem C6_lengths (index : List Int) (a : Array32Index)
    (hret : (InitIndexBitmap Array32Index.fresh index).state? = some a) :
    a.Bitmaps.length = a.Offsets.length ∧
    (index = [] → a.Bitmaps = [] ∧ a.Offsets = []) ∧
    (∀ last : Int, index.getLast? = some last → 0 ≤ last → last < 2 ^ 31 →
      (a.Bitmaps.length : Int) = (last + 1 + 63) / 64) := by
  obtain ⟨h1, h2, h3⟩ := initIndexBitmap_returns hret
  refine ⟨by rw [h1, h2], ?_, ?_⟩
  · rintro rfl
    have hz : bmCntOf ([] : List Int) = 0 := by decide
    rw [hz] at h1 h2
    exact ⟨List.eq_nil_of_length_eq_zero (by simpa using h1),
      List.eq_nil_of_length_eq_zero (by simpa using h2)⟩
  · intro last hlast h0 h31
    have hne : index ≠ [] := by
      rintro rfl
      simp at hlast
    have hl : index.getLast hne = last := by
      rw [List.getLast?_eq_getLast index hne] at hlast
      exact Option.some.inj hlast
    have hcnt := bmCntOf_eq hne
    rw [hl] at hcnt
    have hcore := bmCnt_core last (by omega) h31 (by rw [← hcnt]; exact h3)
    have hform := hcore.1 h0
    rw [h1, show (last + 1 + 63 : Int) = last + 64 from by ring, ← hform, ← hcnt]
    omega

/-- Counterexample to C6 as stated: building from [-65] returns (with the
NotAscending error) empty Bitmaps and Offsets, but ceil((last + 1) / 64) =
ceil(-64 / 64) = -1, so the length (0) does not equal the claimed formula. -/
theorem C6_counterexample :
    (InitIndexBitmap Array32Index.fresh [-65]).state? = some ⟨0, [], []⟩ ∧
    ¬ (((Array32Index.mk 0 [] []).Bitmaps.length : Int) = ((-65) + 1 + 63) / 64) := by
  decide

/-- Witness for C6 at the build list [5]. -/
theorem C6_lengths_witness :
    ((InitIndexBitmap Array32Index.fresh [5]).state? = some ⟨1, [32], [0]⟩) ∧
    (Array32Index.mk 1 [32] [0]).Bitmaps.length =
      (Array32Index.mk 1 [32] [0]).Offsets.length ∧
    (((Array32Index.mk 1 [32] [0]).Bitmaps.length : Int) = (5 + 1 + 63) / 64) :=
  ⟨by decide, (C6_lengths [5] ⟨1, [32], [0]⟩ (by decide)).1,
    (C6_lengths [5] ⟨1, [32], [0]⟩ (by decide)).2.2 5 (by decide) (by decide) (by decide)⟩

/-- C7: when InitIndexBitmap completes without error on a fresh structure,
Cnt equals the number of accepted keys, i.e. the length of the input list
(the required length of the external dense array). -/
theorem C7_count (index : List Int) (a : Array32Index)
    (hok : InitIndexBitmap Array32Index.fresh index = .ok a) :
    a.Cnt = (index.length : Int) := by
  obtain ⟨hInv, _⟩ := initIndexBitmap_ok_inv hok
  exact hInv.cnt

/-- Witness for C7 at the build list [1, 2, 64, 130]. -/
theorem C7_count_witness :
    (InitIndexBitmap Array32Index.fresh [1, 2, 64, 130] = .ok ⟨4, [6, 1, 4], [0, 2, 3]⟩) ∧
    (Array32Index.mk 4 [6, 1, 4] [0, 2, 3]).Cnt = (([1, 2, 64, 130] : List Int).length : Int) :=
  ⟨by decide, C7_count [1, 2, 64, 130] ⟨4, [6, 1, 4], [0, 2, 3]⟩ (by decide)⟩

/-- C8: building from [1, 2, 64, 130] succeeds with count 4, and then
GetEltIndex(1) = (0, true), GetEltIndex(2) = (1, true), GetEltIndex(3) =
(0, false), GetEltIndex(64) = (2, true), GetEltIndex(130) = (3, true), and
Has(63) = false. -/
theorem C8_concrete_scenario :
    InitIndexBitmap Array32Index.fresh [1, 2, 64, 130] = .ok ⟨4, [6, 1, 4], [0, 2, 3]⟩ ∧
    (Array32Index.mk 4 [6, 1, 4] [0, 2, 3]).Cnt = 4 ∧
    GetEltIndex ⟨4, [6, 1, 4], [0, 2, 3]⟩ 1 = some (0, true) ∧
    GetEltIndex ⟨4, [6, 1, 4], [0, 2, 3]⟩ 2 = some (1, true) ∧
    GetEltIndex ⟨4, [6, 1, 4], [0, 2, 3]⟩ 3 = some (0, false) ∧
    GetEltIndex ⟨4, [6, 1, 4], [0, 2, 3]⟩ 64 = some (2, true) ∧
    GetEltIndex ⟨4, [6, 1, 4], [0, 2, 3]⟩ 130 = some (3, true) ∧
    Has ⟨4, [6, 1, 4], [0, 2, 3]⟩ 63 = some false := by decide

/-- C9: for every non-negative int32 key, the block/bit split used by Has
(truncated division by bmWidth and the mask idx mod 64, i.e. idx & 63)
equals the split computed by bmBit (arithmetic shift right by 6 and the
same mask). -/
theorem C9_split_agree (idx : Int) (h0 : 0 ≤ idx) :
    (Int.tdiv idx bmWidth, idx % 64) = bmBit idx := by
  have h1 : Int.tdiv idx bmWidth = Int.fdiv idx 64 := by
    show Int.tdiv idx 64 = Int.fdiv idx 64
    rw [tdiv64_nonneg idx h0, Int.fdiv_eq_ediv _ (by norm_num)]
  rw [h1]
  rfl

/-- Witness for C9 at the key 130. -/
theorem C9_split_agree_witness :
    ((0 : Int) ≤ 130) ∧ (Int.tdiv 130 bmWidth, (130 : Int) % 64) = bmBit 130 :=
  ⟨by decide, C9_split_agree 130 (by decide)⟩

/-- C10: for every int32 input list in which every element is at most the
last element, the slice writes of appendIndex are in bounds: the build
never aborts with the out-of-range panic of appendIndex, and (when the
allocation itself does not fail) the NotAscending error occurs exactly when
the ascent check against the previously accepted key (ascFrom, which never
consults the capacity) fails. -/
theorem C10_no_oob (index : List Int)
    (h32 : ∀ x ∈ index, -2 ^ 31 ≤ x ∧ x < 2 ^ 31)
    (hle : ∀ x ∈ index, x ≤ index.getLastD 0) :
    InitIndexBitmap Array32Index.fresh index ≠ .panicIndex ∧
    (InitIndexBitmap Array32Index.fresh index ≠ .panicMake →
      ((∃ a, InitIndexBitmap Array32Index.fresh index = .errNotAscending a) ↔
        ascFrom 0 index = false)) := by
  rw [initIndexBitmap_eq]
  split
  · exact ⟨fun h => BuildResult.noConfusion h, fun hne => absurd rfl hne⟩
  · rename_i hge
    have hb : ∀ x ∈ index,
        x < 64 * ((List.replicate (bmCntOf index).toNat (0 : Nat)).length : Int) := by
      intro x hx
      have hne : index ≠ [] := by
        rintro rfl
        exact absurd hx (List.not_mem_nil x)
      have hlastD : index.getLastD 0 = index.getLast hne := by
        rw [List.getLastD_eq_getLast?, List.getLast?_eq_getLast index hne]
        rfl
      have hlmem : index.getLast hne ∈ index := List.getLast_mem hne
      have h32l := h32 _ hlmem
      have hcnt := bmCntOf_eq hne
      have hcore := bmCnt_core (index.getLast hne) (by omega) (by omega)
        (by rw [← hcnt]; omega)
      have hlt64 := hcore.2
      have hxle := hle x hx
      rw [hlastD] at hxle
      rw [List.length_replicate]
      rw [← hcnt] at hlt64
      omega
    obtain ⟨hnp, hiff⟩ := initLoop_no_oob index
      { Array32Index.fresh with
        Bitmaps := List.replicate (bmCntOf index).toNat 0,
        Offsets := List.replicate (bmCntOf index).toNat 0 } 0 (by simp) le_rfl hb
    exact ⟨hnp, fun _ => hiff⟩

/-- Witness for C10 at the input [3, 2, 100] (not ascending, every element
at most the last element). -/
theorem C10_no_oob_witness :
    (∀ x ∈ ([3, 2, 100] : List Int), -2 ^ 31 ≤ x ∧ x < 2 ^ 31) ∧
    (∀ x ∈ ([3, 2, 100] : List Int), x ≤ ([3, 2, 100] : List Int).getLastD 0) ∧
    (InitIndexBitmap Array32Index.fresh [3, 2, 100] ≠ .panicIndex ∧
      (InitIndexBitmap Array32Index.fresh [3, 2, 100] ≠ .panicMake →
        ((∃ a, InitIndexBitmap Array32Index.fresh [3, 2, 100] = .errNotAscending a) ↔
          ascFrom 0 [3, 2, 100] = false))) :=
  ⟨by decide, by decide, C10_no_oob [3, 2, 100] (by decide) (by decide)⟩

end Slim
